import Mathlib

/-!
Verification development for the `waitforit` condition-waiting library
(`src/wait.rs`, `src/waits.rs`).

The stateful Rust code is embedded by explicit state passing:

* `Env` packages the external world read by one `condition_met` call
  (`Instant::now()`, `SystemTime::now()`, `Path::exists`,
  `get_modified_time`, `get_file_size`, TCP connect outcome, HTTP status).
* `Wait σ` mirrors the `Wait` enum; the interior-mutable `Cell` fields
  (`last_update`, `size_bytes`) become ordinary fields, and
  `condition_met` returns the updated `Wait` next to its `Bool` result.
* `Custom` holds `f : σ → Bool × σ`: a Rust `fn() -> bool` whose side
  effects on ambient state (e.g. a test counter) are modelled by
  threading the state `σ`.
* `Instant` is modelled as `Nat`, `SystemTime` as `Int`, `Duration` as
  `Nat`; `SystemTime::now().duration_since(t)` fails exactly when `t`
  is later than now.
* Machine integers are `Nat` with explicit `% 2^w` where the Rust code
  can overflow (release-mode wrapping semantics).
* Rust panics (out-of-range slice, non-boundary byte slice) are
  modelled by `Option`, `none` standing for the panic.
-/

/-- External world observed by a single `condition_met` call. -/
structure Env where
  nowInstant : Nat
  nowSystem : Int
  pathExists : String → Bool
  modifiedTime : String → Option Int
  fileSize : String → Option Nat
  tcpOk : String → Bool
  httpStatus : String → Nat

/-- The `Wait` enum of `src/wait.rs`, with the `Cell` memories inlined as
fields and the `Custom` probe state-passing over `σ`. -/
inductive Wait (σ : Type) where
  | Elapsed (endInstant : Nat) (not : Bool)
  | Exists (not : Bool) (path : String)
  | Update (not : Bool) (path : String) (lastUpdate : Option Int)
  | UpdateSince (not : Bool) (path : String) (triggerDuration : Nat)
  | TcpHost (not : Bool) (host : String)
  | HttpGet (not : Bool) (url : String) (status : Nat)
  | FileSize (not : Bool) (path : String) (sizeBytes : Option Nat)
  | Custom (f : σ → Bool × σ) (not : Bool)

/-- Embeds `Wait::condition_met` (src/wait.rs:187-301).  Returns the boolean
result, the condition with its interior memory as mutated by the call,
and the ambient probe state after any `Custom` probe ran. -/
def Wait.condition_met {σ : Type} (w : Wait σ) (env : Env) (s : σ) :
    Bool × Wait σ × σ :=
  match w with
  | .Elapsed endInstant not =>
      (if not then decide (endInstant ≥ env.nowInstant)
       else decide (endInstant < env.nowInstant), w, s)
  | .Exists not path =>
      (if not then !(env.pathExists path) else env.pathExists path, w, s)
  | .HttpGet not url status =>
      (if not then decide (status ≠ env.httpStatus url)
       else decide (status = env.httpStatus url), w, s)
  | .TcpHost not host =>
      (if not then !(env.tcpOk host) else env.tcpOk host, w, s)
  | .Update not path lastUpdate =>
      match env.modifiedTime path with
      | none => (true, w, s)
      | some currentModified =>
        match lastUpdate with
        | some lastUpdated =>
          let isUpdated : Bool := decide (lastUpdated ≠ currentModified)
          if not then
            if isUpdated then
              (false, .Update not path (some currentModified), s)
            else
              (true, w, s)
          else
            (isUpdated, w, s)
        | none => (false, .Update not path (some currentModified), s)
  | .UpdateSince not path triggerDuration =>
      match env.modifiedTime path with
      | none => (true, w, s)
      | some lastUpdated =>
        if env.nowSystem < lastUpdated then (true, w, s)
        else
          let sinceLastUpdate : Nat := (env.nowSystem - lastUpdated).toNat
          (xor (decide (sinceLastUpdate < triggerDuration)) not, w, s)
  | .FileSize not path sizeBytes =>
      match sizeBytes, env.fileSize path with
      | _, none => (true, w, s)
      | some prev, some curr =>
        if !not && decide (prev ≠ curr) then (true, w, s)
        else if not && decide (prev = curr) then (true, w, s)
        else (false, .FileSize not path (some curr), s)
      | none, some curr => (false, .FileSize not path (some curr), s)
  | .Custom f not =>
      let r := f s
      (if not then !r.1 else r.1, w, r.2)

/-- Embeds `impl Not for Wait` (src/wait.rs:319-382): flip the variant's `not`
flag in place and return the same value. -/
def Wait.lnot {σ : Type} : Wait σ → Wait σ
  | .Elapsed endInstant not => .Elapsed endInstant (!not)
  | .Exists not path => .Exists (!not) path
  | .HttpGet not url status => .HttpGet (!not) url status
  | .TcpHost not host => .TcpHost (!not) host
  | .Update not path lastUpdate => .Update (!not) path lastUpdate
  | .UpdateSince not path triggerDuration =>
      .UpdateSince (!not) path triggerDuration
  | .FileSize not path sizeBytes => .FileSize (!not) path sizeBytes
  | .Custom f not => .Custom f (!not)

/-- The `not` flag of a condition. -/
def Wait.notFlag {σ : Type} : Wait σ → Bool
  | .Elapsed _ not => not
  | .Exists not _ => not
  | .HttpGet not _ _ => not
  | .TcpHost not _ => not
  | .Update not _ _ => not
  | .UpdateSince not _ _ => not
  | .FileSize not _ _ => not
  | .Custom _ not => not

/-- Replace the `not` flag, keeping every other field. -/
def Wait.setNotFlag {σ : Type} (b : Bool) : Wait σ → Wait σ
  | .Elapsed endInstant _ => .Elapsed endInstant b
  | .Exists _ path => .Exists b path
  | .HttpGet _ url status => .HttpGet b url status
  | .TcpHost _ host => .TcpHost b host
  | .Update _ path lastUpdate => .Update b path lastUpdate
  | .UpdateSince _ path triggerDuration =>
      .UpdateSince b path triggerDuration
  | .FileSize _ path sizeBytes => .FileSize b path sizeBytes
  | .Custom f _ => .Custom f b

/-- Observation memory of a condition: the `last_update` cell of
`Update` (left) or the `size_bytes` cell of `FileSize` (right). -/
def Wait.memoryOf {σ : Type} : Wait σ → Option (Int ⊕ Nat)
  | .Update _ _ lastUpdate => lastUpdate.map Sum.inl
  | .FileSize _ _ sizeBytes => sizeBytes.map Sum.inr
  | _ => none

/-- Run `condition_met` once per environment of the list, threading the
mutated condition and probe state; collects the boolean outputs. -/
def Wait.runList {σ : Type} : Wait σ → List Env → σ → List Bool
  | _, [], _ => []
  | w, env :: envs, s =>
    let r := w.condition_met env s
    r.1 :: runList r.2.1 envs r.2.2

/-- The `Waits` combinator tree of `src/waits.rs`. -/
inductive Waits (σ : Type) where
  | Single (w : Wait σ)
  | Or (left right : Waits σ)
  | And (left right : Waits σ)

/-- Embeds `Waits::condition_met` (src/waits.rs:27-33):
`Single` delegates; `Or` is Rust `||`, `And` is Rust `&&` — the left
child always runs first and the right child runs only when the left
result does not already decide the answer. -/
def Waits.condition_met {σ : Type} : Waits σ → Env → σ → Bool × Waits σ × σ
  | .Single w, env, s =>
    let r := w.condition_met env s
    (r.1, .Single r.2.1, r.2.2)
  | .Or left right, env, s =>
    let r := left.condition_met env s
    if r.1 then (true, .Or r.2.1 right, r.2.2)
    else
      let r1 := right.condition_met env r.2.2
      (r1.1, .Or r.2.1 r1.2.1, r1.2.2)
  | .And left right, env, s =>
    let r := left.condition_met env s
    if r.1 then
      let r1 := right.condition_met env r.2.2
      (r1.1, .And r.2.1 r1.2.1, r1.2.2)
    else (false, .And r.2.1 right, r.2.2)

/-- Probe `a` of the spec's short-circuit test: returns `true`,
touches nothing. -/
def probeA : Wait Nat := .Custom (fun s => (true, s)) false

/-- Probe `b` of the spec's short-circuit test: increments a counter
and returns `true`. -/
def probeB : Wait Nat := .Custom (fun s => (true, s + 1)) false

/-- Wrap-around modulus of Rust `u32` arithmetic. -/
def M32 : Nat := 4294967296

/-- The `'0'..='9'` range pattern of `parse_duration`, stated on the
scalar value (`'0'` is 48, `'9'` is 57). -/
def isDurDigit (c : Char) : Bool := decide (48 ≤ c.toNat) && decide (c.toNat ≤ 57)

/-- Loop body of `parse_duration` (src/wait.rs:397-436), one equation
per character of the input; `acc` and `total` are the `u32` locals
(release-mode wrapping).  The `[]` case is the code after the loop:
`total_delay += acc` and `Duration::from_secs`. -/
def parse_duration_go : List Char → Nat → Nat → Option Nat
  | [], acc, total => some ((total + acc) % M32)
  | c :: cs, acc, total =>
    if isDurDigit c then
      parse_duration_go cs ((acc * 10 % M32 + (c.toNat - 48)) % M32) total
    else if c = 'd' then
      parse_duration_go cs 0 ((total + acc * 86400 % M32) % M32)
    else if c = 'h' then
      parse_duration_go cs 0 ((total + acc * 3600 % M32) % M32)
    else if c = 'm' then
      parse_duration_go cs 0 ((total + acc * 60 % M32) % M32)
    else if c = 's' then
      parse_duration_go cs 0 ((total + acc) % M32)
    else none

/-- Embeds `parse_duration` (src/wait.rs:397-436); the result is the number of
seconds of the returned `Duration`. -/
def parse_duration (duration : String) : Option Nat :=
  parse_duration_go duration.toList 0 0

/-- Decimal value of a digit string continuing from accumulator `acc`
(the ideal, non-wrapping value of the `acc` local). -/
def digitVal (acc : Nat) : List Char → Nat
  | [] => acc
  | c :: cs => digitVal (acc * 10 + (c.toNat - 48)) cs

/-- Seconds per unit letter of the duration format. -/
def unitMult (c : Char) : Nat :=
  if c = 'd' then 86400
  else if c = 'h' then 3600
  else if c = 'm' then 60
  else 1

/-- The four unit letters of the duration format. -/
def isUnit (c : Char) : Bool := c = 'd' || c = 'h' || c = 'm' || c = 's'

/-- Concatenate `<digits><unit>` groups followed by trailing digits. -/
def renderGroups : List (List Char × Char) → List Char → List Char
  | [], trail => trail
  | (ds, u) :: gs, trail => ds ++ u :: renderGroups gs trail

/-- Total seconds denoted by `<digits><unit>` groups plus trailing
digits read as seconds. -/
def groupsVal : List (List Char × Char) → List Char → Nat
  | [], trail => digitVal 0 trail
  | (ds, u) :: gs, trail => digitVal 0 ds * unitMult u + groupsVal gs trail

/-- The UTF-8 byte width of a scalar value (Rust `char::len_utf8`). -/
def utf8SizeC (c : Char) : Nat :=
  if c.toNat ≤ 0x7F then 1
  else if c.toNat ≤ 0x7FF then 2
  else if c.toNat ≤ 0xFFFF then 3
  else 4

/-- The UTF-8 byte length of a string given as its characters
(Rust `str::len`). -/
def utf8Len (cs : List Char) : Nat := (cs.map utf8SizeC).sum

/-- Rust byte slice `&s[n..]` on a UTF-8 string, expressed on the
character list: `none` models the panic when `n` overruns the string or
is not a character boundary. -/
def dropBytes : Nat → List Char → Option (List Char)
  | 0, cs => some cs
  | _ + 1, [] => none
  | n + 1, c :: cs =>
    if utf8SizeC c ≤ n + 1 then dropBytes (n + 1 - utf8SizeC c) cs
    else none

/-- Rust `u16` wrapping subtraction on already-reduced operands. -/
def u16sub (a b : Nat) : Nat := (a % 65536 + 65536 - b % 65536) % 65536

/-- The status-code arithmetic of `parse_http_get` (src/wait.rs:450-452):
`100 * (c0 as u16 - '0' as u16) + 10 * (c1 …) + (c2 …)`, all in
wrapping `u16`. -/
def statusCode (c0 c1 c2 : Char) : Nat :=
  let d0 := u16sub (c0.toNat % 65536) 48
  let d1 := u16sub (c1.toNat % 65536) 48
  let d2 := u16sub (c2.toNat % 65536) 48
  ((100 * d0 % 65536 + 10 * d1 % 65536) % 65536 + d2) % 65536

/-- The status/URL split of `parse_http_get` (src/wait.rs:443-457),
before URL normalization.  `isNum` embeds the external
`char::is_numeric` collaborator (true on Unicode numerics, a superset
of the ASCII digits).  `none` models a panic: the `urlbytes[0..3]`
slice or `urlbytes[3]` index on a vector of fewer than 4 chars, or the
byte slice `&urlarg[4..]` landing off a character boundary. -/
def parse_http_split (isNum : Char → Bool) (urlarg : List Char) :
    Option (Nat × List Char) :=
  if 4 < utf8Len urlarg then
    match urlarg with
    | c0 :: c1 :: c2 :: rest0 =>
      if isNum c0 && isNum c1 && isNum c2 then
        match rest0 with
        | c3 :: _ =>
          if c3 = ',' then
            match dropBytes 4 urlarg with
            | some rest => some (statusCode c0 c1 c2, rest)
            | none => none
          else some (200, urlarg)
        | [] => none
      else some (200, urlarg)
    | _ => none
  else some (200, urlarg)

/-- Embeds `parse_http_get` (src/wait.rs:443-464).  `norm` embeds the external
`url` crate normalizer (`parse_url`); a `none` from it falls back to
the raw string. -/
def parse_http_get (isNum : Char → Bool) (norm : List Char → Option (List Char))
    (urlarg : List Char) : Option (Nat × List Char) :=
  match parse_http_split isNum urlarg with
  | none => none
  | some (status, url) =>
    match norm url with
    | some u => some (status, u)
    | none => some (status, url)

/-- The normalize-or-fall-back last step of `parse_http_get`. -/
def normFB (norm : List Char → Option (List Char)) (u : List Char) :
    List Char :=
  match norm u with
  | some v => v
  | none => u

/-- A concrete environment used to instantiate witnesses. -/
def envA : Env where
  nowInstant := 10
  nowSystem := 100
  pathExists := fun _ => true
  modifiedTime := fun _ => some 2
  fileSize := fun _ => some 7
  tcpOk := fun _ => true
  httpStatus := fun _ => 200

/-- C5: for the Elapsed variant, `not=false` yields true iff the target
instant is strictly below the sampled now (equality means "not yet
elapsed"), `not=true` yields true iff the target is at or after now,
and for one sampled now the two forms are exact complements. -/
theorem elapsed_strict_boundary_complement {σ : Type} (endInstant : Nat)
    (env : Env) (s : σ) :
    ((Wait.Elapsed endInstant false : Wait σ).condition_met env s).1
        = decide (endInstant < env.nowInstant)
    ∧ ((Wait.Elapsed endInstant true : Wait σ).condition_met env s).1
        = decide (env.nowInstant ≤ endInstant)
    ∧ ((Wait.Elapsed endInstant true : Wait σ).condition_met env s).1
        = !((Wait.Elapsed endInstant false : Wait σ).condition_met env s).1 := by
  refine ⟨rfl, by simp [Wait.condition_met, ge_iff_le], ?_⟩
  simp only [Wait.condition_met, if_true, if_false, ge_iff_le]
  by_cases h : endInstant < env.nowInstant
  · simp [h, Nat.not_le.mpr h]
  · simp [h, Nat.not_lt.mp h]

/-- C6: the logical-not of a primitive condition toggles only the `not`
flag (all other fields, the observation memory included, are kept), it
is an involution, and the double negation has the same output sequence
as the untouched original on every input sequence from every state. -/
theorem lnot_flag_only_involutive {σ : Type} (w : Wait σ) :
    w.lnot = w.setNotFlag (!w.notFlag)
    ∧ w.lnot.lnot = w
    ∧ w.lnot.memoryOf = w.memoryOf
    ∧ ∀ (envs : List Env) (s : σ), w.lnot.lnot.runList envs s = w.runList envs s := by
  have hinv : w.lnot.lnot = w := by
    cases w <;> simp [Wait.lnot]
  refine ⟨?_, hinv, ?_, fun envs s => by rw [hinv]⟩
  · cases w <;> rfl
  · cases w <;> rfl

/-- C1: for the Update variant with a stored prior and a readable
current modification time, `not=false` returns whether the two differ
and leaves the memory alone; `not=true` advances the memory and
returns false on a difference, and returns true leaving the memory
alone when two consecutive reads agree; with no stored prior the
current time is stored and false is returned for either flag. -/
theorem update_variant_semantics {σ : Type} (path : String) (prior : Int)
    (env : Env) (s : σ) (cur : Int) (hread : env.modifiedTime path = some cur) :
    (Wait.Update false path (some prior) : Wait σ).condition_met env s
        = (decide (prior ≠ cur), .Update false path (some prior), s)
    ∧ (Wait.Update true path (some prior) : Wait σ).condition_met env s
        = (if prior ≠ cur then (false, .Update true path (some cur), s)
           else (true, .Update true path (some prior), s))
    ∧ ∀ (not : Bool), (Wait.Update not path none : Wait σ).condition_met env s
        = (false, .Update not path (some cur), s) := by
  refine ⟨?_, ?_, fun not => ?_⟩ <;>
    simp only [Wait.condition_met, hread] <;>
    by_cases h : prior = cur <;> simp [h]

/-- C1 witness at a concrete input. -/
theorem update_variant_semantics_witness :
    envA.modifiedTime "p" = some 2
    ∧ (Wait.Update false "p" (some 1) : Wait Unit).condition_met envA ()
        = (true, .Update false "p" (some 1), ()) := by
  have h := update_variant_semantics (σ := Unit) "p" 1 envA () 2 rfl
  exact ⟨rfl, h.1⟩

/-- C7: Update, UpdateSince and FileSize report the condition met on
any unobservable state (stat failure; for UpdateSince also a clock-skew
failure of `duration_since`) whatever the `not` flag is, and UpdateSince
on readable data returns `(elapsed since update < trigger) XOR not`,
recomputed from scratch, with the condition value left unchanged. -/
theorem updatesince_unreadable_semantics {σ : Type} (not : Bool) (path : String)
    (trig : Nat) (env : Env) (s : σ) :
    (env.modifiedTime path = none →
      (Wait.UpdateSince not path trig : Wait σ).condition_met env s
        = (true, .UpdateSince not path trig, s))
    ∧ (∀ lu : Int, env.modifiedTime path = some lu → env.nowSystem < lu →
      (Wait.UpdateSince not path trig : Wait σ).condition_met env s
        = (true, .UpdateSince not path trig, s))
    ∧ (∀ lu : Int, env.modifiedTime path = some lu → lu ≤ env.nowSystem →
      (Wait.UpdateSince not path trig : Wait σ).condition_met env s
        = (xor (decide ((env.nowSystem - lu).toNat < trig)) not,
           .UpdateSince not path trig, s))
    ∧ (env.modifiedTime path = none → ∀ mem : Option Int,
      (Wait.Update not path mem : Wait σ).condition_met env s
        = (true, .Update not path mem, s))
    ∧ (env.fileSize path = none → ∀ mem : Option Nat,
      (Wait.FileSize not path mem : Wait σ).condition_met env s
        = (true, .FileSize not path mem, s)) := by
  refine ⟨fun h => ?_, fun lu h hlt => ?_, fun lu h hle => ?_,
          fun h mem => ?_, fun h mem => ?_⟩
  · simp [Wait.condition_met, h]
  · simp [Wait.condition_met, h, hlt]
  · simp [Wait.condition_met, h, Int.not_lt.mpr hle]
  · simp [Wait.condition_met, h]
  · cases mem <;> simp [Wait.condition_met, h]

/-- C7 witness at a concrete input (clock skew: modification time 200
is later than system now 100, so the condition fires). -/
theorem updatesince_unreadable_semantics_witness :
    ({ envA with modifiedTime := fun _ => some 200 } : Env).modifiedTime "p" = some 200
    ∧ (200 : Int) > ({ envA with modifiedTime := fun _ => some 200 } : Env).nowSystem
    ∧ (Wait.UpdateSince false "p" 7 : Wait Unit).condition_met
        { envA with modifiedTime := fun _ => some 200 } ()
        = (true, .UpdateSince false "p" 7, ()) :=
  ⟨rfl, by decide,
   (updatesince_unreadable_semantics false "p" 7
     { envA with modifiedTime := fun _ => some 200 } ()).2.1 200 rfl (by decide)⟩

/-- C3 counterexample: an Update condition with stored prior 1, flag
`not=false`, and current modification time 2 keeps memory 1 after the
call, although the claim demands that the memory be unconditionally
overwritten with the current value 2. -/
theorem memory_overwrite_cex :
    envA.modifiedTime "p" = some 2
    ∧ Wait.memoryOf (((Wait.Update false "p" (some 1) : Wait Unit)).condition_met envA ()).2.1
        = some (Sum.inl 1)
    ∧ ((1 : Int) = 2 → False) :=
  ⟨rfl, rfl, by decide⟩

/-- C3 as amended: with a stored prior and a readable current value the
memory is compared with the current value and then overwritten with it
in every case except the firing case of `not=false` with differing
values, where the prior baseline is retained (in the remaining
non-writing paths the stored value already equals the current one). -/
theorem memory_overwrite_except_fire {σ : Type} (not : Bool) (path : String)
    (env : Env) (s : σ) :
    (∀ prior cur : Int, env.modifiedTime path = some cur →
      Wait.memoryOf (((Wait.Update not path (some prior) : Wait σ)).condition_met env s).2.1
        = some (Sum.inl (if !not && decide (prior ≠ cur) then prior else cur)))
    ∧ (∀ prior cur : Nat, env.fileSize path = some cur →
      Wait.memoryOf (((Wait.FileSize not path (some prior) : Wait σ)).condition_met env s).2.1
        = some (Sum.inr (if !not && decide (prior ≠ cur) then prior else cur))) := by
  constructor
  · intro prior cur h
    cases not <;> by_cases hc : prior = cur <;>
      simp [Wait.condition_met, h, hc, Wait.memoryOf]
  · intro prior cur h
    cases not <;> by_cases hc : prior = cur <;>
      simp [Wait.condition_met, h, hc, Wait.memoryOf]

/-- C3 amended witness at a concrete input: `not=true`, prior 1,
current 2 — the memory advances to the current value 2. -/
theorem memory_overwrite_except_fire_witness :
    envA.modifiedTime "p" = some 2
    ∧ Wait.memoryOf (((Wait.Update true "p" (some 1) : Wait Unit)).condition_met envA ()).2.1
        = some (Sum.inl 2) := by
  have h := (memory_overwrite_except_fire (σ := Unit) true "p" envA ()).1 1 2 rfl
  exact ⟨rfl, h⟩

/-- C4: FileSize reports true whenever the size is unreadable, for
either flag and any memory; on a readable size it reports true exactly
when a prior is stored and the current length differs from it
(`not=false`) or equals it (`not=true`); and in every remaining case it
stores the current length and reports false. -/
theorem filesize_variant_semantics {σ : Type} (not : Bool) (path : String)
    (mem : Option Nat) (env : Env) (s : σ) :
    (env.fileSize path = none →
      (Wait.FileSize not path mem : Wait σ).condition_met env s
        = (true, .FileSize not path mem, s))
    ∧ (∀ cur : Nat, env.fileSize path = some cur →
      ((((Wait.FileSize not path mem : Wait σ).condition_met env s).1 = true)
          ↔ ∃ prev, mem = some prev ∧ (if not then prev = cur else prev ≠ cur))
        ∧ ((((Wait.FileSize not path mem : Wait σ).condition_met env s).1 = false) →
          (Wait.FileSize not path mem : Wait σ).condition_met env s
            = (false, .FileSize not path (some cur), s))) := by
  constructor
  · intro h
    cases mem <;> simp [Wait.condition_met, h]
  · intro cur h
    cases mem with
    | none => cases not <;> simp [Wait.condition_met, h]
    | some prev =>
      cases not <;> by_cases hc : prev = cur <;>
        simp [Wait.condition_met, h, hc]

/-- C4 witness at a concrete input: memory 7, current size 7, `not`
false — no informative change, so the size is stored and the result is
false. -/
theorem filesize_variant_semantics_witness :
    envA.fileSize "p" = some 7
    ∧ (Wait.FileSize false "p" (some 7) : Wait Unit).condition_met envA ()
        = (false, .FileSize false "p" (some 7), ()) := by
  have h := ((filesize_variant_semantics (σ := Unit) false "p" (some 7) envA ()).2 7 rfl).2
  refine ⟨rfl, ?_⟩
  simpa using h (by decide)

/-- C2: a leaf delegates to the primitive; And runs its right child iff
the left returned true; Or returns true without touching the right
child iff the left returned true, and runs the right child iff the left
returned false; consequently `probeA OR probeB` leaves the counter of
`probeB` at its initial value while `probeB OR probeA` increments it
exactly once. -/
theorem waits_short_circuit :
    (∀ (σ : Type) (w : Wait σ) (env : Env) (s : σ),
      ((Waits.Single w).condition_met env s).1 = (w.condition_met env s).1)
    ∧ (∀ (σ : Type) (l r : Waits σ) (env : Env) (s : σ),
      (l.condition_met env s).1 = true →
      (Waits.Or l r).condition_met env s
        = (true, .Or (l.condition_met env s).2.1 r, (l.condition_met env s).2.2))
    ∧ (∀ (σ : Type) (l r : Waits σ) (env : Env) (s : σ),
      (l.condition_met env s).1 = false →
      (Waits.Or l r).condition_met env s
        = ((r.condition_met env (l.condition_met env s).2.2).1,
           .Or (l.condition_met env s).2.1
             (r.condition_met env (l.condition_met env s).2.2).2.1,
           (r.condition_met env (l.condition_met env s).2.2).2.2))
    ∧ (∀ (σ : Type) (l r : Waits σ) (env : Env) (s : σ),
      (l.condition_met env s).1 = true →
      (Waits.And l r).condition_met env s
        = ((r.condition_met env (l.condition_met env s).2.2).1,
           .And (l.condition_met env s).2.1
             (r.condition_met env (l.condition_met env s).2.2).2.1,
           (r.condition_met env (l.condition_met env s).2.2).2.2))
    ∧ (∀ (σ : Type) (l r : Waits σ) (env : Env) (s : σ),
      (l.condition_met env s).1 = false →
      (Waits.And l r).condition_met env s
        = (false, .And (l.condition_met env s).2.1 r, (l.condition_met env s).2.2))
    ∧ (∀ (env : Env) (n : Nat),
      (Waits.Or (.Single probeA) (.Single probeB)).condition_met env n
        = (true, .Or (.Single probeA) (.Single probeB), n))
    ∧ (∀ (env : Env) (n : Nat),
      (Waits.Or (.Single probeB) (.Single probeA)).condition_met env n
        = (true, .Or (.Single probeB) (.Single probeA), n + 1)) := by
  refine ⟨fun σ w env s => rfl, fun σ l r env s h => ?_, fun σ l r env s h => ?_,
          fun σ l r env s h => ?_, fun σ l r env s h => ?_,
          fun env n => rfl, fun env n => rfl⟩ <;>
    simp [Waits.condition_met, h]

/-- C2 witness: the Or law applied at the two concrete probes with the
counter starting at 0. -/
theorem waits_short_circuit_witness :
    ((Waits.Single probeA).condition_met envA 0).1 = true
    ∧ (Waits.Or (.Single probeA) (.Single probeB)).condition_met envA 0
        = (true, .Or (.Single probeA) (.Single probeB), 0) :=
  ⟨rfl, waits_short_circuit.2.1 Nat (.Single probeA) (.Single probeB) envA 0 rfl⟩

/-- C10 is a code bug, shown on the failing input `"€€"`: its UTF-8
byte length is 6, so the `urlarg.len() > 4` guard passes, but the
string has only 2 characters, so the slice `urlbytes[0..3]` panics
(modelled by `none`); `parse_http_get` is not total. -/
theorem parse_http_panic_on_multibyte :
    utf8Len "€€".toList = 6
    ∧ "€€".toList.length = 2
    ∧ parse_http_split isDurDigit "€€".toList = none
    ∧ parse_http_get isDurDigit (fun _ => none) "€€".toList = none :=
  ⟨rfl, rfl, rfl, rfl⟩

theorem isDurDigit_bounds {c : Char} (h : isDurDigit c = true) :
    48 ≤ c.toNat ∧ c.toNat ≤ 57 := by
  simpa [isDurDigit] using h

theorem utf8SizeC_of_digit {c : Char} (h : isDurDigit c = true) :
    utf8SizeC c = 1 := by
  obtain ⟨h1, h2⟩ := isDurDigit_bounds h
  unfold utf8SizeC
  rw [if_pos (by omega)]

theorem one_le_utf8SizeC (c : Char) : 1 ≤ utf8SizeC c := by
  unfold utf8SizeC
  repeat' split
  all_goals omega

theorem utf8Len_cons (c : Char) (cs : List Char) :
    utf8Len (c :: cs) = utf8SizeC c + utf8Len cs := by
  simp [utf8Len]

theorem dropBytes_four {d0 d1 d2 c3 : Char} (h0 : utf8SizeC d0 = 1)
    (h1 : utf8SizeC d1 = 1) (h2 : utf8SizeC d2 = 1) (h3 : utf8SizeC c3 = 1)
    (r : List Char) : dropBytes 4 (d0 :: d1 :: d2 :: c3 :: r) = some r := by
  simp [dropBytes, h0, h1, h2, h3]

theorem statusCode_digits {d0 d1 d2 : Char} (h0 : isDurDigit d0 = true)
    (h1 : isDurDigit d1 = true) (h2 : isDurDigit d2 = true) :
    statusCode d0 d1 d2
      = 100 * (d0.toNat - 48) + 10 * (d1.toNat - 48) + (d2.toNat - 48) := by
  obtain ⟨a0, b0⟩ := isDurDigit_bounds h0
  obtain ⟨a1, b1⟩ := isDurDigit_bounds h1
  obtain ⟨a2, b2⟩ := isDurDigit_bounds h2
  simp only [statusCode, u16sub]
  omega

theorem parse_http_get_eq (isNum : Char → Bool)
    (norm : List Char → Option (List Char)) (s : List Char) :
    parse_http_get isNum norm s
      = (parse_http_split isNum s).map (fun p => (p.1, normFB norm p.2)) := by
  unfold parse_http_get normFB
  cases parse_http_split isNum s with
  | none => rfl
  | some p =>
    obtain ⟨st, u⟩ := p
    cases hn : norm u <;> simp [hn]

/-- C9 counterexample: the input `"404,"` starts with exactly 3 decimal
digits followed by a comma, yet `parse_http_get` keeps status 200 and
the whole raw input as the URL — the guard demands a byte length
strictly above 4, so no override and no remainder-taking happen. -/
theorem parse_http_prefix_cex :
    parse_http_get isDurDigit (fun _ => none) "404,".toList
      = some (200, "404,".toList)
    ∧ isDurDigit '4' = true
    ∧ isDurDigit '0' = true
    ∧ ((200 : Nat) = 404 → False) :=
  ⟨rfl, rfl, rfl, by decide⟩

/-- C9 as amended: the status/URL split keeps status 200 and the raw
input when the byte length is at most 4 or when the 3-numerics-and-comma
prefix test fails; when the first three characters are ASCII decimal
digits, the fourth is a comma and at least one character follows, it
returns the 3-digit decimal value and the remainder after the comma
(then best-effort normalized); and any override away from the raw input
requires byte length above 4 and a numeric-numeric-numeric-comma prefix,
where numeric is the collaborator's Unicode test, a strict superset of
the decimal digits. -/
theorem parse_http_get_characterization (isNum : Char → Bool)
    (norm : List Char → Option (List Char)) (s : List Char) :
    (utf8Len s ≤ 4 → parse_http_get isNum norm s = some (200, normFB norm s))
    ∧ (∀ c0 c1 c2 c3 r, s = c0 :: c1 :: c2 :: c3 :: r →
        ((isNum c0 && isNum c1 && isNum c2) = false ∨ c3 ≠ ',') →
        parse_http_get isNum norm s = some (200, normFB norm s))
    ∧ (∀ d0 d1 d2 r, s = d0 :: d1 :: d2 :: ',' :: r → r ≠ [] →
        isDurDigit d0 = true → isDurDigit d1 = true → isDurDigit d2 = true →
        (∀ c, isDurDigit c = true → isNum c = true) →
        parse_http_get isNum norm s
          = some (100 * (d0.toNat - 48) + 10 * (d1.toNat - 48) + (d2.toNat - 48),
                  normFB norm r))
    ∧ (∀ st u, parse_http_split isNum s = some (st, u) → u ≠ s →
        4 < utf8Len s ∧ ∃ c0 c1 c2 r, s = c0 :: c1 :: c2 :: ',' :: r
          ∧ isNum c0 = true ∧ isNum c1 = true ∧ isNum c2 = true) := by
  refine ⟨fun hle => ?_, fun c0 c1 c2 c3 r hs hfail => ?_,
          fun d0 d1 d2 r hs hr h0 h1 h2 hsup => ?_, fun st u hsplit hne => ?_⟩
  · rw [parse_http_get_eq]
    unfold parse_http_split
    rw [if_neg (by omega)]
    rfl
  · rw [parse_http_get_eq]
    subst hs
    unfold parse_http_split
    by_cases hlen : 4 < utf8Len (c0 :: c1 :: c2 :: c3 :: r)
    · rw [if_pos hlen]
      dsimp only
      by_cases hn : (isNum c0 && isNum c1 && isNum c2) = true
      · rcases hfail with hnum | hcomma
        · rw [hnum] at hn
          cases hn
        · rw [if_pos hn, if_neg hcomma]
          rfl
      · rw [if_neg hn]
        rfl
    · rw [if_neg hlen]
      rfl
  · rw [parse_http_get_eq]
    subst hs
    have e0 := utf8SizeC_of_digit h0
    have e1 := utf8SizeC_of_digit h1
    have e2 := utf8SizeC_of_digit h2
    have ec : utf8SizeC ',' = 1 := rfl
    have hlen : 4 < utf8Len (d0 :: d1 :: d2 :: ',' :: r) := by
      obtain ⟨c, cs, rfl⟩ : ∃ c cs, r = c :: cs := by
        cases r with
        | nil => exact absurd rfl hr
        | cons c cs => exact ⟨c, cs, rfl⟩
      have := one_le_utf8SizeC c
      simp only [utf8Len_cons, e0, e1, e2, ec]
      omega
    unfold parse_http_split
    rw [if_pos hlen]
    simp only [hsup d0 h0, hsup d1 h1, hsup d2 h2, Bool.and_self, if_pos]
    rw [dropBytes_four e0 e1 e2 ec, statusCode_digits h0 h1 h2]
    rfl
  · unfold parse_http_split at hsplit
    by_cases hlen : 4 < utf8Len s
    · rw [if_pos hlen] at hsplit
      refine ⟨hlen, ?_⟩
      rcases s with _ | ⟨c0, _ | ⟨c1, _ | ⟨c2, rest0⟩⟩⟩
      · exact absurd hsplit (by simp)
      · exact absurd hsplit (by simp)
      · exact absurd hsplit (by simp)
      · dsimp only at hsplit
        by_cases hn : (isNum c0 && isNum c1 && isNum c2) = true
        · rw [if_pos hn] at hsplit
          rcases rest0 with _ | ⟨c3, t⟩
          · exact absurd hsplit (by simp)
          · dsimp only at hsplit
            by_cases hc : c3 = ','
            · subst hc
              simp only [Bool.and_eq_true] at hn
              exact ⟨c0, c1, c2, t, rfl, hn.1.1, hn.1.2, hn.2⟩
            · rw [if_neg hc] at hsplit
              cases hsplit
              exact absurd rfl hne
        · rw [if_neg hn] at hsplit
          cases hsplit
          exact absurd rfl hne
    · rw [if_neg hlen] at hsplit
      cases hsplit
      exact absurd rfl hne

/-- C9 amended witness: `"404,x"` overrides the status to 404 with
remainder `"x"` (normalizer left as raw fallback), and `"404,"` stays
at status 200. -/
theorem parse_http_get_characterization_witness :
    parse_http_get isDurDigit (fun _ => none) "404,x".toList
      = some (404, "x".toList)
    ∧ parse_http_get isDurDigit (fun _ => none) "404,".toList
      = some (200, "404,".toList) := by
  constructor
  · have h := (parse_http_get_characterization isDurDigit (fun _ => none)
      "404,x".toList).2.2.1 '4' '0' '4' ['x'] rfl (by decide) rfl rfl rfl
      (fun c hc => hc)
    simpa [normFB] using h
  · have h := (parse_http_get_characterization isDurDigit (fun _ => none)
      "404,".toList).1 (by decide)
    simpa [normFB] using h

theorem digitVal_le (ds : List Char) (acc : Nat) : acc ≤ digitVal acc ds := by
  induction ds generalizing acc with
  | nil => exact Nat.le_refl acc
  | cons c cs ih =>
    have h := ih (acc * 10 + (c.toNat - 48))
    show acc ≤ digitVal (acc * 10 + (c.toNat - 48)) cs
    omega

theorem parse_go_digits (ds rest : List Char) (acc total : Nat)
    (hds : ∀ c ∈ ds, isDurDigit c = true) (hlt : digitVal acc ds < M32) :
    parse_duration_go (ds ++ rest) acc total
      = parse_duration_go rest (digitVal acc ds) total := by
  induction ds generalizing acc with
  | nil => rfl
  | cons c cs ih =>
    have hc : isDurDigit c = true := hds c (List.mem_cons_self c cs)
    have hdv : digitVal acc (c :: cs) = digitVal (acc * 10 + (c.toNat - 48)) cs := rfl
    have hb : acc * 10 + (c.toNat - 48) ≤ digitVal acc (c :: cs) := by
      rw [hdv]; exact digitVal_le _ _
    have h1 : acc * 10 + (c.toNat - 48) < M32 := by omega
    have h2 : acc * 10 < M32 := by omega
    show parse_duration_go (c :: (cs ++ rest)) acc total = _
    simp only [parse_duration_go, hc, if_true]
    rw [Nat.mod_eq_of_lt h2, Nat.mod_eq_of_lt h1]
    rw [ih (acc * 10 + (c.toNat - 48)) (fun x hx => hds x (List.mem_cons_of_mem c hx))
      (by rw [← hdv]; exact hlt)]
    rw [hdv]

theorem isUnit_cases {c : Char} (h : isUnit c = true) :
    c = 'd' ∨ c = 'h' ∨ c = 'm' ∨ c = 's' := by
  have h' := h
  simp only [isUnit, Bool.or_eq_true, decide_eq_true_eq] at h'
  tauto

theorem one_le_unitMult (c : Char) : 1 ≤ unitMult c := by
  unfold unitMult
  repeat' split
  all_goals omega

theorem parse_go_unit {u : Char} (hu : isUnit u = true) (rest : List Char)
    (acc total : Nat) (hacc : acc < M32) :
    parse_duration_go (u :: rest) acc total
      = parse_duration_go rest 0 ((total + acc * unitMult u % M32) % M32) := by
  rcases isUnit_cases hu with rfl | rfl | rfl | rfl
  · rfl
  · rfl
  · rfl
  · show parse_duration_go rest 0 ((total + acc) % M32) = _
    rw [show unitMult 's' = 1 from rfl, Nat.mul_one, Nat.mod_eq_of_lt hacc]

theorem parse_go_render (gs : List (List Char × Char)) (trail : List Char)
    (total : Nat)
    (hgs : ∀ g ∈ gs, (∀ c ∈ g.1, isDurDigit c = true) ∧ isUnit g.2 = true)
    (htrail : ∀ c ∈ trail, isDurDigit c = true)
    (hlt : total + groupsVal gs trail < M32) :
    parse_duration_go (renderGroups gs trail) 0 total
      = some (total + groupsVal gs trail) := by
  induction gs generalizing total with
  | nil =>
    have hdv : digitVal 0 trail < M32 := by
      simp only [groupsVal] at hlt; omega
    have h := parse_go_digits trail [] 0 total htrail hdv
    rw [List.append_nil] at h
    show parse_duration_go trail 0 total = _
    rw [h]
    show some ((total + digitVal 0 trail) % M32) = _
    rw [Nat.mod_eq_of_lt (by simpa [groupsVal] using hlt)]
    rfl
  | cons g gs ih =>
    obtain ⟨ds, u⟩ := g
    obtain ⟨hds, hu⟩ := hgs (ds, u) (List.mem_cons_self _ _)
    have hval : groupsVal ((ds, u) :: gs) trail
        = digitVal 0 ds * unitMult u + groupsVal gs trail := rfl
    have hA : digitVal 0 ds ≤ digitVal 0 ds * unitMult u :=
      Nat.le_mul_of_pos_right _ (by have := one_le_unitMult u; omega)
    rw [hval] at hlt
    have hb1 : digitVal 0 ds < M32 := by omega
    have hb2 : digitVal 0 ds * unitMult u < M32 := by omega
    have hb3 : total + digitVal 0 ds * unitMult u < M32 := by omega
    show parse_duration_go (ds ++ u :: renderGroups gs trail) 0 total = _
    rw [parse_go_digits ds (u :: renderGroups gs trail) 0 total hds hb1]
    rw [parse_go_unit hu (renderGroups gs trail) (digitVal 0 ds) total hb1]
    rw [Nat.mod_eq_of_lt hb2, Nat.mod_eq_of_lt hb3]
    rw [ih (total + digitVal 0 ds * unitMult u)
      (fun x hx => hgs x (List.mem_cons_of_mem _ hx)) (by omega)]
    rw [hval]
    congr 1
    omega

theorem parse_go_bad (cs : List Char) (acc total : Nat) (c : Char) (hc : c ∈ cs)
    (hd : isDurDigit c = false) (hu : isUnit c = false) :
    parse_duration_go cs acc total = none := by
  induction cs generalizing acc total with
  | nil => cases hc
  | cons a as ih =>
    rcases List.mem_cons.mp hc with rfl | hmem
    · simp only [isUnit, Bool.or_eq_false_iff, decide_eq_false_iff_not] at hu
      obtain ⟨⟨⟨h1, h2⟩, h3⟩, h4⟩ := hu
      simp [parse_duration_go, hd, h1, h2, h3, h4]
    · show parse_duration_go (a :: as) acc total = none
      simp only [parse_duration_go]
      repeat' split
      all_goals first
        | exact ih _ _ hmem
        | rfl

/-- C8: `parse_duration` maps any concatenation of `<digits><unit>`
groups, with units worth 86400, 3600, 60 and 1 seconds and each unit
resetting the accumulator, plus optional trailing digits read as
seconds, to the sum of the group values (stated below the `u32` wrap
threshold); any other character yields `none`; the empty string parses
to zero; and the three concrete examples evaluate as specified. -/
theorem parse_duration_spec :
    (∀ (gs : List (List Char × Char)) (trail : List Char),
      (∀ g ∈ gs, (∀ c ∈ g.1, isDurDigit c = true) ∧ isUnit g.2 = true) →
      (∀ c ∈ trail, isDurDigit c = true) →
      groupsVal gs trail < M32 →
      parse_duration (String.mk (renderGroups gs trail))
        = some (groupsVal gs trail))
    ∧ (∀ (s : String) (c : Char), c ∈ s.toList → isDurDigit c = false →
        isUnit c = false → parse_duration s = none)
    ∧ parse_duration "" = some 0
    ∧ parse_duration "3h10m" = some 11400
    ∧ parse_duration "90" = some 90
    ∧ parse_duration "1x" = none := by
  refine ⟨fun gs trail hgs htrail hlt => ?_, fun s c hc hd hu => ?_, rfl, rfl, rfl, rfl⟩
  · show parse_duration_go (String.mk (renderGroups gs trail)).toList 0 0 = _
    have he : (String.mk (renderGroups gs trail)).toList = renderGroups gs trail := rfl
    rw [he]
    simpa using parse_go_render gs trail 0 hgs htrail (by omega)
  · exact parse_go_bad s.toList 0 0 c hc hd hu

/-- C8 witness: the group list for `"3h10m"` renders and evaluates to
11400 seconds through the group-sum theorem. -/
theorem parse_duration_spec_witness :
    parse_duration (String.mk (renderGroups [(['3'], 'h'), (['1', '0'], 'm')] []))
      = some 11400
    ∧ groupsVal [(['3'], 'h'), (['1', '0'], 'm')] [] = 11400 := by
  have h := parse_duration_spec.1 [(['3'], 'h'), (['1', '0'], 'm')] []
    (by decide) (by decide) (by decide)
  exact ⟨h, rfl⟩
